import Mathlib

/-!
Verification development for the Cute-Logger commit-log engine.

The definitions below are a shallow embedding of the persistence core:

* `Store`    — pkg/logger/store (src/unnamed/part_005): length-prefixed
  append-only byte log with a buffered writer and a logical `size` counter.
* `Index`    — internal/core/index/index.go: fixed-width (relOffset, position)
  table over a memory mapping.  The source maps the file with
  `MAP_SHARED | MAP_ANONYMOUS` (index.go line 147); on Linux an anonymous
  mapping is zero-initialized and detached from the file descriptor, so
  reads and writes through the mapping never touch the file.  The model
  therefore keeps the mapping as a zero-initialized byte function separate
  from the backing file, of which only the length is ever consulted
  (`Stat` at open, `Truncate` at open and close).
* `Segment`  — pkg/logger/segment (src/unnamed/part_004): pairs one store
  and one index under a base offset.
* `Log`      — internal/logger/log.go: ordered segments plus active segment.

Machine integers are modelled as `Nat`; two's-complement wrap-arounds and
narrowing casts are made explicit (`u64sub`, `u32`, `int64OfU64`) exactly at
the places the Go source performs unsigned subtraction or a narrowing
conversion.  Counters that only ever increase by small deltas
(`nextOffset++`, `size += n`) are left as plain `Nat`: no claim depends on
their 2^64 wrap.  Fallible I/O on the buffered writer is modelled by an
explicit plan of operation outcomes (`IoPlan`).
-/

/-- Two to the 64, the modulus of Go `uint64` arithmetic. -/
def p64 : Nat := 2 ^ 64

/-- Two to the 32, the modulus of Go `uint32` arithmetic. -/
def p32 : Nat := 2 ^ 32

/-- Go `uint64` subtraction `a - b` with wrap-around. -/
def u64sub (a b : Nat) : Nat := (a % p64 + (p64 - b % p64)) % p64

/-- Go narrowing conversion `uint32(x)` of a `uint64` value. -/
def u32 (n : Nat) : Nat := n % p32

/-- Go conversion `int64(x)` of a `uint64` value (two's complement). -/
def int64OfU64 (n : Nat) : Int := if n < 2 ^ 63 then (n : Int) else (n : Int) - (p64 : Int)

/-- Go narrowing conversion `uint32(x)` of an `int64` value (two's complement). -/
def u32OfInt (i : Int) : Nat := (i % (p32 : Int)).toNat

/-- Normalization of an integer into the `int64` range (two's complement
wrap-around). -/
def i64wrap (x : Int) : Int := (x + 2 ^ 63) % 2 ^ 64 - 2 ^ 63

/-- Go `int64` addition `a + b`, which wraps on overflow. -/
def i64add (a b : Int) : Int := i64wrap (a + b)

/-- Big-endian 4-byte encoding, `binary.BigEndian.PutUint32`. -/
def putUint32 (n : Nat) : List Nat :=
  [n / 2 ^ 24 % 256, n / 2 ^ 16 % 256, n / 2 ^ 8 % 256, n % 256]

/-- Big-endian 8-byte encoding, `binary.BigEndian.PutUint64`. -/
def putUint64 (n : Nat) : List Nat :=
  [n / 2 ^ 56 % 256, n / 2 ^ 48 % 256, n / 2 ^ 40 % 256,
   n / 2 ^ 32 % 256, n / 2 ^ 24 % 256, n / 2 ^ 16 % 256, n / 2 ^ 8 % 256, n % 256]

/-- Big-endian decode of a byte list, `binary.BigEndian.Uint32` / `Uint64`
on the first `n` bytes handed to it. -/
def beDecode (bs : List Nat) : Nat := bs.foldl (fun a b => a * 256 + b) 0

/-- Read `n` bytes starting at `start` from a byte function (the memory
mapping). -/
def readBytesF (d : Nat → Nat) (start n : Nat) : List Nat :=
  (List.range n).map fun k => d (start + k)

/-- Write the byte list `bs` at position `start` into a byte function. -/
def writeBytesF (d : Nat → Nat) (start : Nat) (bs : List Nat) : Nat → Nat :=
  fun k => if start ≤ k ∧ k < start + bs.length then bs.getD (k - start) 0 else d k

/-- Read `n` bytes starting at `start` from an on-disk byte list
(`os.File.ReadAt`); callers establish bounds before relying on the result. -/
def readBytesL (f : List Nat) (start n : Nat) : List Nat :=
  (List.range n).map fun k => f.getD (start + k) 0

/-! ## Store (src/unnamed/part_005, package store) -/

/-- Outcomes of the three fallible buffered-writer operations inside
`Store.Append`: the `binary.Write` of the length prefix, the `buf.Write` of
the payload, and the final `buf.Flush`. -/
structure IoPlan where
  lenOk : Bool
  bodyOk : Bool
  flushOk : Bool
deriving DecidableEq

/-- The plan on which every buffered-writer operation succeeds. -/
def ioOK : IoPlan := ⟨true, true, true⟩

/-- The store: the backing file's bytes (the buffer is flushed before every
`Append` returns, so at rest the file holds everything written) and the
in-memory logical size counter. -/
structure Store where
  file : List Nat
  size : Nat

/-- `NewStore` (part_005 lines 75–118) over a backing file: the store is
returned with `size: 0` regardless of the existing file length
(line 115, comment `Initial store size is 0.`). -/
def NewStore (file : List Nat) : Store := { file := file, size := 0 }

/-- `Store.Append` (part_005 lines 120–152).  Writes the 8-byte big-endian
length prefix, then the payload, advances `size`, then flushes.  An error
on the prefix or payload write returns before `size` is advanced; an error
on the flush returns after `size` is advanced (and before the buffered
bytes reach the file). -/
def Store.append (st : Store) (entry : List Nat) (io : IoPlan) :
    Option (Nat × Nat) × Store :=
  if io.lenOk = false then (none, st)
  else if io.bodyOk = false then (none, st)
  else
    let totalWritten := entry.length + 8
    let advanced : Store := { st with size := st.size + totalWritten }
    if io.flushOk = false then (none, advanced)
    else (some (totalWritten, st.size),
          { file := st.file ++ putUint64 entry.length ++ entry,
            size := st.size + totalWritten })

/-- Result of `Store.Read`: success, a failure with the concrete error the
source produces, or a Go runtime panic. -/
inductive ReadRes where
  | ok (bs : List Nat)
  | failBounds
  | failNegOffset
  | failEOF
  | panicked
deriving DecidableEq

/-- `Store.Read` (part_005 lines 154–194) as a function of the backing
file's bytes.  It stats the file and rejects `int64(pos) >= size ||
int64(pos)+int64(wordLength) > size` with the `position out of file
bounds` error — the addition is Go `int64` arithmetic and wraps, so for
`pos ≥ 2^63 - 8` the sum goes negative and only the first disjunct can
fire.  It then calls `ReadAt(sizeBuffer, int64(pos))`: a negative offset
makes `ReadAt` fail, and a read cut short by the end of the file returns
`io.EOF` (reachable exactly in the overflow corner that slipped past the
check).  It allocates `make([]byte, dataSize)` — a Go runtime panic when
the decoded length exceeds the maximum slice length — then calls
`ReadAt(data, int64(pos)+int64(wordLength))` with the same wrapped
offset, where again a negative offset fails and a short read returns
`io.EOF`.  `ReadAt` on an empty buffer returns no error. -/
def storeReadFile (f : List Nat) (pos : Nat) : ReadRes :=
  let s : Int := (f.length : Int)
  let ip : Int := int64OfU64 pos
  if ip ≥ s ∨ i64add ip 8 > s then .failBounds
  else if ip < 0 then .failNegOffset
  else if s < ip + 8 then .failEOF
  else
    let dataSize := beDecode (readBytesL f pos 8)
    if 2 ^ 63 - 1 < dataSize then .panicked
    else if dataSize = 0 then .ok []
    else if i64add ip 8 < 0 then .failNegOffset
    else if s < i64add ip 8 + (dataSize : Int) then .failEOF
    else .ok (readBytesL f (i64add ip 8).toNat dataSize)

/-- `Store.Read` on a store reads through the raw file handle. -/
def Store.read (st : Store) (pos : Nat) : ReadRes := storeReadFile st.file pos

/-! ## Index (src/internal/core/index/index.go) -/

/-- The index: the backing file's length (its bytes are written only by
`os.Truncate` zero-padding — the anonymous mapping never syncs into it —
so only the length is observable), the populated-size counter, and the
anonymous memory mapping as a length plus a byte function. -/
structure Index where
  fileLen : Nat
  size : Nat
  mmapLen : Nat
  data : Nat → Nat

/-- `NewIndex` (index.go lines 84–158): stat the file to initialize `Size`,
`os.Truncate` the file up (or down) to `MaxIndexBytes`, then map it with
`PROT_READ|PROT_WRITE, MAP_SHARED|MAP_ANONYMOUS`.  The anonymous mapping
has the file's just-truncated length and is zero-initialized, detached
from the file. -/
def NewIndex (fileLen maxIndexBytes : Nat) : Index :=
  { fileLen := maxIndexBytes
    size := fileLen
    mmapLen := maxIndexBytes
    data := fun _ => 0 }

/-- `Index.Write` (index.go lines 160–176): fails with `io.EOF` when the
mapping has no room for another 12-byte entry; otherwise writes the 4-byte
relative offset and the 8-byte position at `Size` and advances `Size`. -/
def Index.write (i : Index) (off pos : Nat) : Option Index :=
  if i.mmapLen < i.size + 12 then none
  else some { i with
    data := writeBytesF (writeBytesF i.data i.size (putUint32 off)) (i.size + 4) (putUint64 pos)
    size := i.size + 12 }

/-- `Index.Read` (index.go lines 178–204): `io.EOF` when `Size` is 0; the
input `-1` addresses entry `Size/12 - 1` (uint64 wrap, then a uint32
narrowing); any other input is narrowed `uint32(in)`; `io.EOF` when the
addressed entry lies beyond `Size`; otherwise decodes the entry from the
mapping. -/
def Index.read (i : Index) (inp : Int) : Option (Nat × Nat) :=
  if i.size = 0 then none
  else
    let out : Nat :=
      if inp = -1 then u32 ((i.size / 12 + (p64 - 1)) % p64)
      else u32OfInt inp
    let pos := out * 12
    if i.size < pos + 12 then none
    else some (beDecode (readBytesF i.data pos 4), beDecode (readBytesF i.data (pos + 4) 8))

/-- `Index.Close` (index.go lines 206–232): `mmap.Sync` on the anonymous
mapping writes nothing to the file; the file is then truncated down to
`Size` and closed.  The model returns the resulting on-disk file length
(its bytes are the zeros `os.Truncate` padded in at open). -/
def Index.close (i : Index) : Nat := i.size

/-! ## Records and protobuf wire format (api/record.proto) -/

/-- The `api.Record` protobuf message: `bytes value = 1; uint64 offset = 2;`. -/
structure Record where
  value : List Nat
  offset : Nat
deriving DecidableEq

/-- Base-128 varint encoding, least-significant group first, with explicit
fuel (`n` itself bounds the number of divisions by 128). -/
def varintGo : Nat → Nat → List Nat
  | 0, n => [n % 128]
  | fuel + 1, n => if n < 128 then [n] else (n % 128 + 128) :: varintGo fuel (n / 128)

/-- Protobuf varint encoding of a natural number. -/
def varintEnc (n : Nat) : List Nat := varintGo n n

/-- Proto3 serialization of `api.Record` by `proto.Marshal`: field 1
(`bytes`, tag 0x0A) then field 2 (`uint64` varint, tag 0x10), each omitted
when it holds its default value. -/
def protoMarshal (r : Record) : List Nat :=
  (if r.value = [] then [] else 10 :: varintEnc r.value.length ++ r.value) ++
  (if r.offset = 0 then [] else 16 :: varintEnc r.offset)

/-- Varint decoding: the first byte carries the least-significant 7 bits. -/
def parseVarint : List Nat → Option (Nat × List Nat)
  | [] => none
  | b :: rest =>
    if b < 128 then some (b, rest)
    else
      match parseVarint rest with
      | none => none
      | some (v, r) => some (b % 128 + 128 * v, r)

/-- Field-by-field parsing loop of `proto.Unmarshal` for the `api.Record`
message, last occurrence of a field winning; the fuel argument dominates
the number of iterations (each consumes at least one byte). -/
def recUnmarshal : Nat → Record → List Nat → Option Record
  | _, acc, [] => some acc
  | 0, _, _ :: _ => none
  | fuel + 1, acc, b :: bs =>
    match parseVarint (b :: bs) with
    | none => none
    | some (tag, rest) =>
      if tag = 10 then
        match parseVarint rest with
        | none => none
        | some (len, rest2) =>
          if len ≤ rest2.length then
            recUnmarshal fuel { acc with value := rest2.take len } (rest2.drop len)
          else none
      else if tag = 16 then
        match parseVarint rest with
        | none => none
        | some (v, rest2) => recUnmarshal fuel { acc with offset := v } rest2
      else none

/-- `proto.Unmarshal` into a fresh `api.Record` (proto3 defaults: empty
value, offset 0). -/
def protoUnmarshal (bs : List Nat) : Option Record :=
  recUnmarshal bs.length ⟨[], 0⟩ bs

/-! ## Segment (src/unnamed/part_004, package segment) -/

/-- A segment: one store, one index, the base and next offsets, and the
configured capacities (kept on the segment as `config`). -/
structure Segment where
  store : Store
  index : Index
  baseOffset : Nat
  nextOffset : Nat
  maxStoreBytes : Nat
  maxIndexBytes : Nat

/-- `NewSegment` (part_004 lines 71–133) over the on-disk pair of files for
`base` (store bytes, index file length): builds the store (`NewStore`,
size 0), the index (`NewIndex` with the configured `MaxIndexBytes`), and
recovers `nextOffset` by `index.Read(-1)`: on error `nextOffset = base`,
otherwise `base + off + 1`. -/
def NewSegment (base : Nat) (storeFile : List Nat) (indexFileLen : Nat)
    (maxStoreBytes maxIndexBytes : Nat) : Segment :=
  let ix := NewIndex indexFileLen maxIndexBytes
  { store := NewStore storeFile
    index := ix
    baseOffset := base
    nextOffset :=
      match ix.read (-1) with
      | none => base
      | some (off, _) => base + off + 1
    maxStoreBytes := maxStoreBytes
    maxIndexBytes := maxIndexBytes }

/-- `Segment.Append` (part_004 lines 135–165): assigns
`record.Offset = nextOffset` (mutating the caller's record), marshals,
appends to the store, writes `(uint32(nextOffset-baseOffset), pos)` to the
index, and only then increments `nextOffset`.  The triple returned is
(result offset, the mutated record, the segment's new state). -/
def Segment.append (s : Segment) (record : Record) (io : IoPlan) :
    Option Nat × Record × Segment :=
  let current := s.nextOffset
  let record := { record with offset := current }
  let p := protoMarshal record
  match s.store.append p io with
  | (none, st) => (none, record, { s with store := st })
  | (some (_, pos), st) =>
    match s.index.write (u32 (u64sub s.nextOffset s.baseOffset)) pos with
    | none => (none, record, { s with store := st })
    | some ix =>
      (some current, record,
       { s with store := st, index := ix, nextOffset := s.nextOffset + 1 })

/-- `Segment.Read` (part_004 lines 167–189): reads the index at
`int64(off - baseOffset)` (uint64 wrap, then an int64 reinterpretation —
there is no range check), reads the store at the returned position, and
unmarshals.  A store-read failure of any kind surfaces as `none`. -/
def Segment.read (s : Segment) (off : Nat) : Option Record :=
  match s.index.read (int64OfU64 (u64sub off s.baseOffset)) with
  | none => none
  | some (_, pos) =>
    match s.store.read pos with
    | .ok p => protoUnmarshal p
    | _ => none

/-- Modelled from the spec: `Segment.IsFull` lives in
internal/core/segment/segment.go, which is not among the sources (only its
tests are).  Spec §4.3: true iff the store's logical size has reached
`maxStoreBytes` or the index's populated size has reached
`maxIndexBytes`. -/
def Segment.isFull (s : Segment) : Bool :=
  s.maxStoreBytes ≤ s.store.size || s.maxIndexBytes ≤ s.index.size

/-- `Segment.Close` (part_004 lines 191–201): closes index then store; the
model returns the on-disk pair (store file bytes, index file length). -/
def Segment.close (s : Segment) : List Nat × Nat :=
  (s.store.file, s.index.close)

/-- A fresh segment over files that do not yet exist (both created empty),
as `Log.newSegment` produces during a roll. -/
def Segment.fresh (base maxStoreBytes maxIndexBytes : Nat) : Segment :=
  NewSegment base [] 0 maxStoreBytes maxIndexBytes

/-- Fold of successful `Segment.Append` calls (failure-free buffered I/O);
`none` when some append returns an error. -/
def Segment.appendAll (s : Segment) : List Record → Option Segment
  | [] => some s
  | r :: rs =>
    match s.append r ioOK with
    | (some _, _, s1) => s1.appendAll rs
    | (none, _, _) => none

/-! ## Log (src/internal/logger/log.go) -/

/-- Default segment capacities: `log.newSegment` (log.go lines 193–206)
passes only the directory and initial offset, so `DefaultOptions` of the
segment package applies (part_004 lines 32–38, matching spec §6). -/
def segMaxStoreDefault : Nat := 10 * 1024 * 1024

/-- Default `MaxIndexBytes` of the segment package. -/
def segMaxIndexDefault : Nat := 50 * 1024 * 1024

/-- The log: the Go struct holds `segmentList` and an `activeSegment`
pointer that aliases the list's last element; the model keeps the older
segments and the active one separately. -/
structure Log where
  older : List Segment
  active : Segment

/-- The `segmentList` field: older segments followed by the active one. -/
def Log.segmentList (l : Log) : List Segment := l.older ++ [l.active]

/-- `log.newSegment` (log.go lines 193–206): appends a fresh segment at
`offset` to the list and makes it active. -/
def Log.newSegment (l : Log) (offset : Nat) : Log :=
  ⟨l.older ++ [l.active], Segment.fresh offset segMaxStoreDefault segMaxIndexDefault⟩

/-- `NewLog` on an empty directory (log.go `setup`, lines 32–73): no
segment files found, so one segment is created at offset 0. -/
def NewLogEmptyDir : Log :=
  ⟨[], Segment.fresh 0 segMaxStoreDefault segMaxIndexDefault⟩

/-- `NewLog` on a directory holding exactly the pair `0.store` / `0.index`
(log.go `setup`: both stems parse to offset 0, the sorted list `[0,0]` is
deduplicated by the stride-2 loop, and one segment is opened at base 0). -/
def NewLogDirOne (storeFile : List Nat) (indexFileLen : Nat) : Log :=
  ⟨[], NewSegment 0 storeFile indexFileLen segMaxStoreDefault segMaxIndexDefault⟩

/-- `Log.Append` (log.go lines 75–92): append to the active segment; on
error return it (the segment's partial state change persists); on success,
if the active segment is now full, roll a new segment at `off + 1`. -/
def Log.append (l : Log) (record : Record) : Option Nat × Log :=
  match l.active.append record ioOK with
  | (none, _, s1) => (none, { l with active := s1 })
  | (some off, _, s1) =>
    let l1 : Log := { l with active := s1 }
    if s1.isFull then (some off, l1.newSegment (off + 1)) else (some off, l1)

/-- `Log.Read` (log.go lines 94–117): linear scan for the segment whose
`[base, next)` window contains the offset; out-of-range otherwise. -/
def Log.read (l : Log) (offset : Nat) : Option Record :=
  match l.segmentList.find? (fun s => s.baseOffset ≤ offset && offset < s.nextOffset) with
  | none => none
  | some s => s.read offset

/-- `Log.Truncate`'s retention loop (log.go lines 119–148): drop every
segment with `nextOffset <= lowest+1` (uint64 arithmetic), keep the rest
in order.  `Segment.Remove` (missing internal/core/segment; spec §4.3
closes and deletes the files) does not affect the retained list. -/
def truncateSegs (lowest : Nat) : List Segment → List Segment
  | [] => []
  | s :: rest =>
    if s.nextOffset ≤ (lowest + 1) % p64 then truncateSegs lowest rest
    else s :: truncateSegs lowest rest

/-- `Log.Truncate` returns the log's new `segmentList`. -/
def Log.truncate (l : Log) (lowest : Nat) : List Segment :=
  truncateSegs lowest l.segmentList

/-- `Log.Close` (log.go lines 150–162) through `Segment.Close`: the
resulting per-segment on-disk state in list order. -/
def Log.close (l : Log) : List (List Nat × Nat) :=
  l.segmentList.map Segment.close

/-- Fold of successful `Log.Append` calls, collecting the returned
offsets; `none` when some append returns an error. -/
def Log.appendAll (l : Log) : List Record → Option (List Nat × Log)
  | [] => some ([], l)
  | r :: rs =>
    match l.append r with
    | (some off, l1) =>
      match l1.appendAll rs with
      | some (offs, l2) => some (off :: offs, l2)
      | none => none
    | (none, _) => none

/-! ## Derived definitions used by the claim statements -/

/-- Marshaled bytes the segment persists for `r` when appended at absolute
offset `s.nextOffset`. -/
def segPayload (base : Nat) (done : List Record) (j : Nat) : List Nat :=
  protoMarshal ⟨(done.getD j ⟨[], 0⟩).value, base + j⟩

/-- Invariant of a segment that started fresh at `base` and absorbed the
records `done`, all appends succeeding: configuration intact, offsets and
sizes in lockstep, and every appended record reachable through index plus
store layout. -/
def SegGood (base maxS maxI : Nat) (done : List Record) (s : Segment) : Prop :=
  s.baseOffset = base ∧
  s.maxStoreBytes = maxS ∧
  s.maxIndexBytes = maxI ∧
  s.nextOffset = base + done.length ∧
  s.index.size = 12 * done.length ∧
  s.index.mmapLen = maxI ∧
  s.store.size = s.store.file.length ∧
  ∀ j, j < done.length → j < p32 →
    ∃ pos,
      s.index.read (j : Int) = some (j, pos) ∧
      pos + 8 + (segPayload base done j).length ≤ s.store.file.length ∧
      readBytesL s.store.file pos 8 = putUint64 (segPayload base done j).length ∧
      readBytesL s.store.file (pos + 8) (segPayload base done j).length = segPayload base done j

/-- Fold of successful `Index.Write` calls; `none` when some write fails. -/
def Index.writeAll (i : Index) : List (Nat × Nat) → Option Index
  | [] => some i
  | e :: es =>
    match i.write e.1 e.2 with
    | some i2 => i2.writeAll es
    | none => none

/-- Invariant of an index that started empty and absorbed the entries
`done`, all writes succeeding. -/
def IdxGood (maxI : Nat) (done : List (Nat × Nat)) (i : Index) : Prop :=
  i.size = 12 * done.length ∧
  i.mmapLen = maxI ∧
  ∀ j, j < done.length → j < p32 →
    i.read (j : Int) = some ((done.getD j (0, 0)).1 % p32, (done.getD j (0, 0)).2 % p64)

/-- The invariant of `Log.Append` sequences: the active segment will assign
`n` next, and adjacent segments chain `base = previous.nextOffset`. -/
def LogGood (n : Nat) (l : Log) : Prop :=
  l.active.nextOffset = n ∧
  List.Chain' (fun a b => b.baseOffset = a.nextOffset) l.segmentList

/-- Records of the concrete round-trip run: two distinct one-byte values. -/
def rtRecords : List Record := [⟨[97], 0⟩, ⟨[98], 0⟩]

/-- The log after appending `rtRecords` to a fresh log on an empty
directory. -/
def rtLog : Log := ((NewLogEmptyDir.appendAll rtRecords).getD ([], NewLogEmptyDir)).2

/-- The on-disk state (store bytes, index file length) of the single
segment after `Close`. -/
def rtDisk : List Nat × Nat := rtLog.close.getD 0 ([], 0)

/-- The log obtained by opening the directory again. -/
def rtReopened : Log := NewLogDirOne rtDisk.1 rtDisk.2

/-- A pre-existing store file holding one 16-byte entry (8-byte length
prefix, 8 payload bytes). -/
def c3file : List Nat := putUint64 8 ++ [1, 2, 3, 4, 5, 6, 7, 8]

/-- Segment at base 10 holding one record, for probing `Read` below the
base offset. -/
def c4seg : Segment :=
  ((Segment.fresh 10 1024 1024).appendAll [⟨[97], 0⟩]).getD (Segment.fresh 0 0 0)

/-- Segment whose store capacity is a single byte. -/
def c5seg : Segment := Segment.fresh 0 1 1024

/-- Segment whose index mapping (6 bytes) cannot hold even one entry. -/
def c5full : Segment := Segment.fresh 0 1024 6

/-- Index holding exactly one written entry. -/
def c6idx : Index := ((NewIndex 0 1024).writeAll [(7, 13)]).getD (NewIndex 0 0)

/-- A store file whose second entry region decodes a huge length: one
8-byte entry whose payload bytes are all 0xFF. -/
def c8file : List Nat := putUint64 8 ++ [255, 255, 255, 255, 255, 255, 255, 255]

/-- Segment used by the frame-effect witness. -/
def c10seg : Segment := Segment.fresh 5 1024 1024

/-! ## Arithmetic and byte-level helper lemmas -/

theorem p64_eq : p64 = 18446744073709551616 := by norm_num [p64]

theorem p32_eq : p32 = 4294967296 := by norm_num [p32]

theorem int64OfU64_small {n : Nat} (h : n < 2 ^ 63) : int64OfU64 n = (n : Int) := by
  simp only [int64OfU64, if_pos h]

theorem u32OfInt_natCast (j : Nat) : u32OfInt (j : Int) = j % p32 := by
  simp only [u32OfInt, p32_eq]
  omega

theorem u64sub_add_left (base j : Nat) : u64sub (base + j) base = j % p64 := by
  simp only [u64sub, p64_eq] at *
  omega

theorem beDecode_putUint32 (n : Nat) : beDecode (putUint32 n) = n % p32 := by
  simp only [beDecode, putUint32, List.foldl, p32_eq]
  norm_num
  omega

theorem beDecode_putUint64 (n : Nat) : beDecode (putUint64 n) = n % p64 := by
  simp only [beDecode, putUint64, List.foldl, p64_eq]
  norm_num
  omega

theorem putUint32_length (n : Nat) : (putUint32 n).length = 4 := rfl

theorem putUint64_length (n : Nat) : (putUint64 n).length = 8 := rfl

theorem readBytesF_length (d : Nat → Nat) (start n : Nat) :
    (readBytesF d start n).length = n := by simp [readBytesF]

theorem readBytesF_writeBytesF (d : Nat → Nat) (start : Nat) (bs : List Nat) :
    readBytesF (writeBytesF d start bs) start bs.length = bs := by
  apply List.ext_getElem
  · simp [readBytesF]
  · intro i h1 h2
    simp only [readBytesF, List.getElem_map, List.getElem_range, writeBytesF]
    rw [if_pos ⟨by omega, by omega⟩, show start + i - start = i by omega]
    exact List.getD_eq_getElem bs 0 h2

theorem readBytesF_writeBytesF_before (d : Nat → Nat) (start : Nat) (bs : List Nat)
    (start2 n : Nat) (h : start2 + n ≤ start) :
    readBytesF (writeBytesF d start bs) start2 n = readBytesF d start2 n := by
  unfold readBytesF
  refine List.map_congr_left fun k hk => ?_
  rw [List.mem_range] at hk
  simp only [writeBytesF]
  rw [if_neg (by omega)]

theorem readBytesL_length (f : List Nat) (start n : Nat) :
    (readBytesL f start n).length = n := by simp [readBytesL]

theorem readBytesL_append_left {f : List Nat} (g : List Nat) {start n : Nat}
    (h : start + n ≤ f.length) :
    readBytesL (f ++ g) start n = readBytesL f start n := by
  unfold readBytesL
  refine List.map_congr_left fun k hk => ?_
  rw [List.mem_range] at hk
  exact List.getD_append _ _ _ _ (by omega)

theorem readBytesL_append_at (f g : List Nat) {n : Nat} (h : n ≤ g.length) :
    readBytesL (f ++ g) f.length n = g.take n := by
  apply List.ext_getElem
  · simp [readBytesL, h]
  · intro i h1 h2
    simp only [readBytesL, List.getElem_map, List.getElem_range]
    rw [List.getD_append_right _ _ _ _ (by omega), show f.length + i - f.length = i by omega,
      List.getElem_take]
    exact List.getD_eq_getElem g 0 (by simp [readBytesL] at h1; omega)

/-! ## Varint and protobuf roundtrip -/

theorem parseVarint_varintGo (fuel : Nat) :
    ∀ m rest, m ≤ fuel → parseVarint (varintGo fuel m ++ rest) = some (m, rest) := by
  induction fuel with
  | zero =>
    intro m rest hm
    interval_cases m
    simp [varintGo, parseVarint]
  | succ fuel ih =>
    intro m rest hm
    by_cases h : m < 128
    · simp [varintGo, h, parseVarint]
    · rw [varintGo, if_neg h, List.cons_append, parseVarint]
      rw [if_neg (by omega : ¬ m % 128 + 128 < 128), ih (m / 128) rest (by omega)]
      show some ((m % 128 + 128) % 128 + 128 * (m / 128), rest) = some (m, rest)
      have hd : (m % 128 + 128) % 128 + 128 * (m / 128) = m := by omega
      rw [hd]

theorem parseVarint_varintEnc (m : Nat) (rest : List Nat) :
    parseVarint (varintEnc m ++ rest) = some (m, rest) :=
  parseVarint_varintGo m m rest le_rfl

theorem recUnmarshal_nil (fuel : Nat) (acc : Record) :
    recUnmarshal fuel acc [] = some acc := by
  cases fuel <;> rfl

theorem recUnmarshal_field2 (fuel : Nat) (acc : Record) (off : Nat) (rest : List Nat) :
    recUnmarshal (fuel + 1) acc (16 :: (varintEnc off ++ rest)) =
      recUnmarshal fuel { acc with offset := off } rest := by
  rw [recUnmarshal, parseVarint]
  rw [if_pos (by norm_num : (16 : Nat) < 128)]
  show (if (16 : Nat) = 10 then _ else if (16 : Nat) = 16 then
      match parseVarint (varintEnc off ++ rest) with
      | none => none
      | some (v, rest2) => recUnmarshal fuel { acc with offset := v } rest2
    else none) = _
  rw [if_neg (by norm_num : ¬ (16 : Nat) = 10), if_pos rfl, parseVarint_varintEnc]

theorem recUnmarshal_field1 (fuel : Nat) (acc : Record) (v rest : List Nat) :
    recUnmarshal (fuel + 1) acc (10 :: (varintEnc v.length ++ (v ++ rest))) =
      recUnmarshal fuel { acc with value := v } rest := by
  rw [recUnmarshal, parseVarint]
  rw [if_pos (by norm_num : (10 : Nat) < 128)]
  show (if (10 : Nat) = 10 then
      match parseVarint (varintEnc v.length ++ (v ++ rest)) with
      | none => none
      | some (len, rest2) =>
        if len ≤ rest2.length then
          recUnmarshal fuel { acc with value := rest2.take len } (rest2.drop len)
        else none
    else _) = _
  rw [if_pos rfl, parseVarint_varintEnc]
  show (if v.length ≤ (v ++ rest).length then
      recUnmarshal fuel { acc with value := (v ++ rest).take v.length } ((v ++ rest).drop v.length)
    else none) = _
  rw [if_pos (by simp), List.take_left, List.drop_left]

theorem protoUnmarshal_protoMarshal (r : Record) :
    protoUnmarshal (protoMarshal r) = some r := by
  obtain ⟨v, off⟩ := r
  by_cases hv : v = [] <;> by_cases ho : off = 0
  · subst hv; subst ho
    simp [protoMarshal, protoUnmarshal, recUnmarshal_nil]
  · subst hv
    have hm : protoMarshal ⟨[], off⟩ = 16 :: (varintEnc off ++ []) := by
      simp [protoMarshal, ho]
    simp only [protoUnmarshal, hm]
    have hL : (16 :: (varintEnc off ++ [])).length = (varintEnc off ++ []).length + 1 := rfl
    rw [hL, recUnmarshal_field2, recUnmarshal_nil]
  · subst ho
    have hm : protoMarshal ⟨v, 0⟩ = 10 :: (varintEnc v.length ++ (v ++ [])) := by
      simp [protoMarshal, hv]
    simp only [protoUnmarshal, hm]
    have hL : (10 :: (varintEnc v.length ++ (v ++ []))).length =
        (varintEnc v.length ++ (v ++ [])).length + 1 := rfl
    rw [hL, recUnmarshal_field1, recUnmarshal_nil]
  · have hm : protoMarshal ⟨v, off⟩ =
        10 :: (varintEnc v.length ++ (v ++ (16 :: (varintEnc off ++ [])))) := by
      simp [protoMarshal, hv, ho]
    simp only [protoUnmarshal, hm]
    have hL1 : (10 :: (varintEnc v.length ++ (v ++ (16 :: (varintEnc off ++ []))))).length =
        (varintEnc v.length ++ (v ++ (16 :: (varintEnc off ++ [])))).length + 1 := rfl
    rw [hL1, recUnmarshal_field1]
    have hL2 : (varintEnc v.length ++ (v ++ (16 :: (varintEnc off ++ [])))).length =
        ((varintEnc v.length).length + v.length + (varintEnc off).length) + 1 := by
      simp [List.length_append]
      omega
    rw [hL2, recUnmarshal_field2, recUnmarshal_nil]

/-! ## Index-level lemmas -/

theorem Index.write_full {i : Index} (h : i.mmapLen < i.size + 12) (off pos : Nat) :
    i.write off pos = none := by
  simp [Index.write, h]

theorem Index.write_ok {i : Index} (h : i.size + 12 ≤ i.mmapLen) (off pos : Nat) :
    i.write off pos = some { i with
      data := writeBytesF (writeBytesF i.data i.size (putUint32 off)) (i.size + 4)
        (putUint64 pos)
      size := i.size + 12 } := by
  simp [Index.write, Nat.not_lt.mpr h]

theorem Index.read_nat (i : Index) (j : Nat) (h0 : i.size ≠ 0) :
    i.read (j : Int) =
      (if i.size < (j % p32) * 12 + 12 then none
       else some (beDecode (readBytesF i.data ((j % p32) * 12) 4),
                  beDecode (readBytesF i.data ((j % p32) * 12 + 4) 8))) := by
  rw [Index.read, if_neg h0]
  have hne : (j : Int) ≠ -1 := by omega
  rw [if_neg hne, u32OfInt_natCast]

theorem Index.read_nat_beyond (i : Index) {j m : Nat} (hsz : i.size = 12 * m)
    (hj : m ≤ j) (hj32 : j < p32) : i.read (j : Int) = none := by
  by_cases h0 : i.size = 0
  · rw [Index.read, if_pos h0]
  · rw [Index.read_nat i j h0, if_pos (by rw [Nat.mod_eq_of_lt hj32]; omega)]

theorem Index.read_write_last {i i2 : Index} {off pos m : Nat}
    (hsz : i.size = 12 * m) (hm : m < p32)
    (hw : i.write off pos = some i2) :
    i2.read (m : Int) = some (off % p32, pos % p64) := by
  by_cases hcap : i.mmapLen < i.size + 12
  · rw [Index.write_full hcap] at hw; cases hw
  · rw [Index.write_ok (by omega) off pos] at hw
    obtain rfl := Option.some.inj hw
    have hd1 : readBytesF (writeBytesF (writeBytesF i.data i.size (putUint32 off))
        (i.size + 4) (putUint64 pos)) i.size 4 = putUint32 off := by
      rw [readBytesF_writeBytesF_before _ _ _ _ _ (by omega)]
      have h := readBytesF_writeBytesF i.data i.size (putUint32 off)
      rwa [putUint32_length] at h
    have hd2 : readBytesF (writeBytesF (writeBytesF i.data i.size (putUint32 off))
        (i.size + 4) (putUint64 pos)) (i.size + 4) 8 = putUint64 pos := by
      have h := readBytesF_writeBytesF (writeBytesF i.data i.size (putUint32 off))
        (i.size + 4) (putUint64 pos)
      rwa [putUint64_length] at h
    rw [Index.read_nat _ m (by simp)]
    rw [Nat.mod_eq_of_lt hm]
    rw [if_neg (by simp; omega)]
    show some (beDecode (readBytesF (writeBytesF (writeBytesF i.data i.size (putUint32 off))
        (i.size + 4) (putUint64 pos)) (m * 12) 4), _) = _
    rw [show m * 12 = i.size by omega]
    rw [hd1, hd2, beDecode_putUint32, beDecode_putUint64]

theorem Index.read_write_frame {i i2 : Index} {off pos : Nat} (j : Nat)
    (hw : i.write off pos = some i2) (hj : (j % p32) * 12 + 12 ≤ i.size)
    (h0 : i.size ≠ 0) :
    i2.read (j : Int) = i.read (j : Int) := by
  by_cases hcap : i.mmapLen < i.size + 12
  · rw [Index.write_full hcap] at hw; cases hw
  · rw [Index.write_ok (by omega) off pos] at hw
    obtain rfl := Option.some.inj hw
    rw [Index.read_nat _ j h0, Index.read_nat _ j (by simp)]
    rw [if_neg (by simp; omega), if_neg (by omega)]
    have e1 : readBytesF (writeBytesF (writeBytesF i.data i.size (putUint32 off))
        (i.size + 4) (putUint64 pos)) ((j % p32) * 12) 4 =
        readBytesF i.data ((j % p32) * 12) 4 := by
      rw [readBytesF_writeBytesF_before _ _ _ _ _ (by omega)]
      rw [readBytesF_writeBytesF_before _ _ _ _ _ (by omega)]
    have e2 : readBytesF (writeBytesF (writeBytesF i.data i.size (putUint32 off))
        (i.size + 4) (putUint64 pos)) ((j % p32) * 12 + 4) 8 =
        readBytesF i.data ((j % p32) * 12 + 4) 8 := by
      rw [readBytesF_writeBytesF_before _ _ _ _ _ (by omega)]
      rw [readBytesF_writeBytesF_before _ _ _ _ _ (by omega)]
    rw [e1, e2]

theorem Index.read_last_slot (i : Index) (N : Nat) (hsz : i.size = 12 * N)
    (h1 : 1 ≤ N) :
    i.read (-1) = i.read ((N - 1 : Nat) : Int) := by
  have h0 : i.size ≠ 0 := by omega
  rw [Index.read_nat _ _ h0, Index.read, if_neg h0, if_pos rfl]
  have hout : u32 ((i.size / 12 + (p64 - 1)) % p64) = (N - 1) % p32 := by
    simp only [u32, hsz, p64_eq, p32_eq]
    omega
  rw [hout]

/-! ## Store-level lemmas -/

theorem storeReadFile_spec (f : List Nat) (pos : Nat) (p : List Nat)
    (hbound : pos + 8 + p.length ≤ f.length)
    (hfl : f.length < 2 ^ 63)
    (hpre : readBytesL f pos 8 = putUint64 p.length)
    (hpay : readBytesL f (pos + 8) p.length = p) :
    storeReadFile f pos = .ok p := by
  unfold storeReadFile
  dsimp only
  have hp63 : pos < 2 ^ 63 := by omega
  rw [int64OfU64_small hp63]
  have hadd : i64add ((pos : Nat) : Int) 8 = ((pos : Nat) : Int) + 8 := by
    simp only [i64add, i64wrap]
    omega
  rw [hadd]
  rw [if_neg (by omega)]
  rw [if_neg (by omega)]
  rw [if_neg (by omega)]
  rw [hpre, beDecode_putUint64]
  have hplen : p.length % p64 = p.length := Nat.mod_eq_of_lt (by rw [p64_eq]; omega)
  rw [hplen]
  have htn : (((pos : Nat) : Int) + 8).toNat = pos + 8 := by omega
  by_cases hz : p.length = 0
  · rw [if_neg (by omega), if_pos hz]
    rw [List.eq_nil_of_length_eq_zero hz]
  · rw [if_neg (by omega), if_neg hz, if_neg (by omega), if_neg (by omega), htn]
    rw [hpay]

/-! ## Segment-level lemmas -/

theorem Store.append_flushed (st : Store) (entry : List Nat) :
    st.append entry ioOK =
      (some (entry.length + 8, st.size),
       { file := st.file ++ putUint64 entry.length ++ entry,
         size := st.size + (entry.length + 8) }) := by
  simp [Store.append, ioOK]

theorem Segment.append_some_spec {s : Segment} {r : Record} {off : Nat} {r' : Record} {s1 : Segment}
    (h : s.append r ioOK = (some off, r', s1)) :
    off = s.nextOffset ∧
    r' = { r with offset := s.nextOffset } ∧
    s1.baseOffset = s.baseOffset ∧
    s1.maxStoreBytes = s.maxStoreBytes ∧
    s1.maxIndexBytes = s.maxIndexBytes ∧
    s1.nextOffset = s.nextOffset + 1 ∧
    s1.store.file = s.store.file ++
      putUint64 (protoMarshal { r with offset := s.nextOffset }).length ++
      protoMarshal { r with offset := s.nextOffset } ∧
    s1.store.size = s.store.size + ((protoMarshal { r with offset := s.nextOffset }).length + 8) ∧
    s.index.write (u32 (u64sub s.nextOffset s.baseOffset)) s.store.size = some s1.index := by
  rw [Segment.append] at h
  rw [Store.append_flushed] at h
  dsimp only at h
  cases hiw : s.index.write (u32 (u64sub s.nextOffset s.baseOffset)) s.store.size with
  | none =>
    rw [hiw] at h
    simp at h
  | some ix =>
    rw [hiw] at h
    simp only [Prod.mk.injEq, Option.some.injEq] at h
    obtain ⟨h1, h2, h3⟩ := h
    subst h3
    refine ⟨h1.symm, h2.symm, ?_, ?_, ?_, ?_, ?_, ?_, ?_⟩ <;> simp [hiw]

theorem Segment.append_err_next (s : Segment) (r : Record) (io : IoPlan)
    (h : (s.append r io).1 = none) :
    (s.append r io).2.2.nextOffset = s.nextOffset := by
  obtain ⟨lo, bo, fo⟩ := io
  cases hiw : s.index.write (u32 (u64sub s.nextOffset s.baseOffset)) s.store.size <;>
    cases lo <;> cases bo <;> cases fo <;>
    first
      | (simp [Segment.append, Store.append, hiw]; done)
      | (simp [Segment.append, Store.append, hiw] at h)

/-! ## Segment state invariant under successful appends -/

theorem segGood_init (base maxS maxI : Nat) :
    SegGood base maxS maxI [] (Segment.fresh base maxS maxI) := by
  refine ⟨rfl, rfl, rfl, ?_, rfl, rfl, rfl, ?_⟩
  · simp [Segment.fresh, NewSegment, NewIndex, Index.read]
  · intro j hj
    simp at hj

theorem Index.write_some_fields {i i2 : Index} {off pos : Nat}
    (hw : i.write off pos = some i2) :
    i2.size = i.size + 12 ∧ i2.mmapLen = i.mmapLen ∧ i.size + 12 ≤ i.mmapLen := by
  by_cases hcap : i.mmapLen < i.size + 12
  · rw [Index.write_full hcap] at hw; cases hw
  · rw [Index.write_ok (by omega)] at hw
    obtain rfl := Option.some.inj hw
    exact ⟨rfl, rfl, by omega⟩

theorem segGood_step {base maxS maxI : Nat} {done : List Record} {s : Segment} (r : Record)
    {off : Nat} {r' : Record} {s1 : Segment}
    (hg : SegGood base maxS maxI done s)
    (h : s.append r ioOK = (some off, r', s1))
    (h63 : s1.store.size < 2 ^ 63) :
    off = base + done.length ∧ SegGood base maxS maxI (done ++ [r]) s1 := by
  obtain ⟨hb, hms, hmi, hn, hisz, hml, hss, hreads⟩ := hg
  obtain ⟨ho, hr', hb1, hms1, hmi1, hn1, hf1, hsz1, hiw⟩ := Segment.append_some_spec h
  obtain ⟨hix2, hixm2, hcap⟩ := Index.write_some_fields hiw
  set p := protoMarshal { r with offset := s.nextOffset } with hp
  have hL8 : (putUint64 p.length).length = 8 := putUint64_length _
  have hlen1 : s1.store.file.length = s.store.file.length + (8 + p.length) := by
    rw [hf1]
    simp only [List.length_append, hL8]
    omega
  have hs63 : s.store.size + (p.length + 8) < 2 ^ 63 := by omega
  have hlenrs : (done ++ [r]).length = done.length + 1 := by simp
  constructor
  · omega
  refine ⟨hb1.trans hb, hms1.trans hms, hmi1.trans hmi, ?_, ?_, ?_, ?_, ?_⟩
  · rw [hn1, hn, hlenrs]; omega
  · rw [hix2, hisz, hlenrs]; omega
  · rw [hixm2, hml]
  · omega
  · intro j hj h32
    rw [hlenrs] at hj
    by_cases hjold : j < done.length
    · obtain ⟨pos, hir, hbound, hpre, hpay⟩ := hreads j hjold h32
      have hPeq : segPayload base (done ++ [r]) j = segPayload base done j := by
        unfold segPayload
        rw [List.getD_append _ _ _ _ hjold]
      have hsz0 : s.index.size ≠ 0 := by omega
      refine ⟨pos, ?_, ?_, ?_, ?_⟩
      · rw [Index.read_write_frame j hiw (by rw [Nat.mod_eq_of_lt h32]; omega) hsz0, hir]
      · rw [hPeq]; omega
      · rw [hPeq, hf1, List.append_assoc, readBytesL_append_left _ (by omega), hpre]
      · rw [hPeq, hf1, List.append_assoc, readBytesL_append_left _ (by omega), hpay]
    · have hjeq : j = done.length := by omega
      subst hjeq
      have hPeq : segPayload base (done ++ [r]) done.length = p := by
        unfold segPayload
        rw [List.getD_append_right _ _ _ _ (le_refl done.length), Nat.sub_self]
        rw [hp, hn]
        rfl
      have hread := Index.read_write_last hisz h32 hiw
      have hoff : u32 (u64sub s.nextOffset s.baseOffset) % p32 = done.length := by
        rw [hn, hb, u64sub_add_left, u32]
        simp only [p32_eq, p64_eq] at h32 ⊢
        omega
      have hpos : s.store.size % p64 = s.store.file.length := by
        have hlt : s.store.size < p64 := by rw [p64_eq]; omega
        rw [Nat.mod_eq_of_lt hlt, hss]
      rw [hoff, hpos] at hread
      refine ⟨s.store.file.length, hread, ?_, ?_, ?_⟩
      · rw [hPeq]; omega
      · rw [hPeq, hf1, List.append_assoc]
        rw [readBytesL_append_at _ _ (by simp only [List.length_append, hL8]; omega)]
        have ht := List.take_left (putUint64 p.length) p
        rw [hL8] at ht
        exact ht
      · rw [hPeq, hf1]
        have hstart : s.store.file.length + 8 = (s.store.file ++ putUint64 p.length).length := by
          simp only [List.length_append, hL8]
        rw [hstart, readBytesL_append_at _ _ (le_refl p.length), List.take_length]

theorem Segment.appendAll_size_mono :
    ∀ (rs : List Record) (s s2 : Segment),
      s.appendAll rs = some s2 → s.store.size ≤ s2.store.size := by
  intro rs
  induction rs with
  | nil =>
    intro s s2 h
    rw [Segment.appendAll] at h
    obtain rfl := Option.some.inj h
    exact le_rfl
  | cons r rs ih =>
    intro s s2 h
    rw [Segment.appendAll] at h
    rcases he : s.append r ioOK with ⟨res, r', s1⟩
    rw [he] at h
    cases res with
    | none => simp at h
    | some off =>
      have h1 := ih s1 s2 h
      obtain ⟨-, -, -, -, -, -, -, hsz1, -⟩ := Segment.append_some_spec he
      omega

theorem segGood_appendAll {base maxS maxI : Nat} :
    ∀ (rs done : List Record) (s s2 : Segment),
      SegGood base maxS maxI done s → s.appendAll rs = some s2 →
      s2.store.size < 2 ^ 63 → SegGood base maxS maxI (done ++ rs) s2 := by
  intro rs
  induction rs with
  | nil =>
    intro done s s2 hg ha h63
    rw [Segment.appendAll] at ha
    obtain rfl := Option.some.inj ha
    simpa using hg
  | cons r rs ih =>
    intro done s s2 hg ha h63
    rw [Segment.appendAll] at ha
    rcases he : s.append r ioOK with ⟨res, r', s1⟩
    rw [he] at ha
    cases res with
    | none => simp at ha
    | some off =>
      have hmono := Segment.appendAll_size_mono rs s1 s2 ha
      have hstep := segGood_step r hg he (by omega)
      have hrec := ih (done ++ [r]) s1 s2 hstep.2 ha h63
      simpa [List.append_assoc] using hrec

theorem segGood_read_ok {base maxS maxI : Nat} {done : List Record} {s : Segment}
    (hg : SegGood base maxS maxI done s) (h63 : s.store.size < 2 ^ 63)
    {k : Nat} (hbase : base ≤ k) (hk : k - base < done.length) (h32 : k - base < p32) :
    s.read k = some ⟨(done.getD (k - base) ⟨[], 0⟩).value, k⟩ := by
  obtain ⟨hb, -, -, hn, hisz, -, hss, hreads⟩ := hg
  obtain ⟨pos, hir, hbound, hpre, hpay⟩ := hreads (k - base) hk h32
  have hsub : u64sub k base = k - base := by
    rw [show k = base + (k - base) by omega, u64sub_add_left, Nat.add_sub_cancel_left]
    exact Nat.mod_eq_of_lt (by simp only [p32_eq, p64_eq] at h32 ⊢; omega)
  have hcast : int64OfU64 (u64sub k base) = ((k - base : Nat) : Int) := by
    rw [hsub]
    exact int64OfU64_small (by simp only [p32_eq] at h32; omega)
  rw [Segment.read, hb, hcast, hir]
  have hsr : s.store.read pos = .ok (segPayload base done (k - base)) := by
    rw [Store.read]
    exact storeReadFile_spec _ _ _ hbound (by omega) hpre hpay
  dsimp only
  rw [hsr]
  dsimp only
  unfold segPayload
  rw [protoUnmarshal_protoMarshal]
  rw [show base + (k - base) = k by omega]

theorem segGood_read_beyond {base maxS maxI : Nat} {done : List Record} {s : Segment}
    (hg : SegGood base maxS maxI done s)
    {k : Nat} (hbase : base ≤ k) (hk : done.length ≤ k - base) (h32 : k - base < p32) :
    s.read k = none := by
  obtain ⟨hb, -, -, hn, hisz, -, hss, hreads⟩ := hg
  have hsub : u64sub k base = k - base := by
    rw [show k = base + (k - base) by omega, u64sub_add_left, Nat.add_sub_cancel_left]
    exact Nat.mod_eq_of_lt (by simp only [p32_eq, p64_eq] at h32 ⊢; omega)
  have hcast : int64OfU64 (u64sub k base) = ((k - base : Nat) : Int) := by
    rw [hsub]
    exact int64OfU64_small (by simp only [p32_eq] at h32; omega)
  rw [Segment.read, hb, hcast, Index.read_nat_beyond s.index hisz hk h32]

/-! ## Index writeAll invariant -/

theorem Index.write_none_iff (i : Index) (off pos : Nat) :
    i.write off pos = none ↔ i.mmapLen < i.size + 12 := by
  unfold Index.write
  by_cases h : i.mmapLen < i.size + 12 <;> simp [h]

theorem idxGood_init (maxI : Nat) : IdxGood maxI [] (NewIndex 0 maxI) := by
  refine ⟨rfl, rfl, ?_⟩
  intro j hj
  simp at hj

theorem idxGood_step {maxI : Nat} {done : List (Nat × Nat)} {i i2 : Index}
    (hg : IdxGood maxI done i) (e : Nat × Nat)
    (hw : i.write e.1 e.2 = some i2) :
    IdxGood maxI (done ++ [e]) i2 := by
  obtain ⟨hsz, hml, hreads⟩ := hg
  obtain ⟨hsz2, hml2, hcap⟩ := Index.write_some_fields hw
  have hlen : (done ++ [e]).length = done.length + 1 := by simp
  refine ⟨by rw [hsz2, hsz, hlen]; omega, hml2.trans hml, ?_⟩
  intro j hj h32
  rw [hlen] at hj
  by_cases hjold : j < done.length
  · have hgd : (done ++ [e]).getD j (0, 0) = done.getD j (0, 0) :=
      List.getD_append _ _ _ _ hjold
    rw [hgd, Index.read_write_frame j hw (by rw [Nat.mod_eq_of_lt h32]; omega) (by omega)]
    exact hreads j hjold h32
  · have hjeq : j = done.length := by omega
    subst hjeq
    have hgd : (done ++ [e]).getD done.length (0, 0) = e := by
      rw [List.getD_append_right _ _ _ _ (le_refl done.length), Nat.sub_self]
      rfl
    rw [hgd]
    exact Index.read_write_last hsz h32 hw

theorem idxGood_writeAll {maxI : Nat} :
    ∀ (ws done : List (Nat × Nat)) (i i2 : Index),
      IdxGood maxI done i → i.writeAll ws = some i2 →
      IdxGood maxI (done ++ ws) i2 := by
  intro ws
  induction ws with
  | nil =>
    intro done i i2 hg hw
    rw [Index.writeAll] at hw
    obtain rfl := Option.some.inj hw
    simpa using hg
  | cons e es ih =>
    intro done i i2 hg hw
    rw [Index.writeAll] at hw
    cases he : i.write e.1 e.2 with
    | none => rw [he] at hw; simp at hw
    | some i1 =>
      rw [he] at hw
      have hrec := ih (done ++ [e]) i1 i2 (idxGood_step hg e he) hw
      simpa [List.append_assoc] using hrec

/-! ## Log invariant -/

theorem logGood_init : LogGood 0 NewLogEmptyDir := by
  constructor
  · simp [NewLogEmptyDir, Segment.fresh, NewSegment, NewIndex, Index.read]
  · simp [NewLogEmptyDir, Log.segmentList]

theorem chain_swap_last {xs : List Segment} {a b : Segment}
    (h : List.Chain' (fun x y => y.baseOffset = x.nextOffset) (xs ++ [a]))
    (hb : b.baseOffset = a.baseOffset) :
    List.Chain' (fun x y => y.baseOffset = x.nextOffset) (xs ++ [b]) := by
  rw [List.chain'_append] at h ⊢
  obtain ⟨h1, -, h3⟩ := h
  refine ⟨h1, List.chain'_singleton b, ?_⟩
  intro x hx y hy
  simp only [List.head?_cons, Option.mem_def, Option.some.injEq] at hy
  subst hy
  rw [hb]
  exact h3 x hx a (by simp)

theorem chain_snoc_last {xs : List Segment} {a b : Segment}
    (h : List.Chain' (fun x y => y.baseOffset = x.nextOffset) (xs ++ [a]))
    (hb : b.baseOffset = a.nextOffset) :
    List.Chain' (fun x y => y.baseOffset = x.nextOffset) ((xs ++ [a]) ++ [b]) := by
  rw [List.chain'_append]
  refine ⟨h, List.chain'_singleton b, ?_⟩
  intro x hx y hy
  simp only [List.head?_cons, Option.mem_def, Option.some.injEq] at hy
  subst hy
  rw [List.getLast?_concat] at hx
  simp only [Option.mem_def, Option.some.injEq] at hx
  subst hx
  exact hb

theorem logGood_step {n : Nat} {l : Log} {r : Record} {off : Nat} {l1 : Log}
    (hg : LogGood n l) (h : l.append r = (some off, l1)) :
    off = n ∧ LogGood (n + 1) l1 := by
  obtain ⟨hn, hchain⟩ := hg
  rw [Log.append] at h
  rcases ha : l.active.append r ioOK with ⟨res, r2, s1⟩
  rw [ha] at h
  cases res with
  | none => simp at h
  | some off2 =>
    dsimp only at h
    obtain ⟨ho2, -, hb1, -, -, hn1, -, -, -⟩ := Segment.append_some_spec ha
    have hoff : off2 = n := by omega
    by_cases hfull : s1.isFull
    · rw [if_pos hfull] at h
      simp only [Prod.mk.injEq, Option.some.injEq] at h
      obtain ⟨h1, h2⟩ := h
      subst h1 h2
      refine ⟨hoff, ?_, ?_⟩
      · simp [Log.newSegment, Segment.fresh, NewSegment, NewIndex, Index.read]
        omega
      · simp only [Log.newSegment, Log.segmentList]
        have hchain1 : List.Chain' (fun x y => y.baseOffset = x.nextOffset)
            (l.older ++ [s1]) := chain_swap_last hchain (hb1)
        exact chain_snoc_last hchain1 (by
          simp [Segment.fresh, NewSegment, NewIndex, Index.read]
          omega)
    · rw [if_neg hfull] at h
      simp only [Prod.mk.injEq, Option.some.injEq] at h
      obtain ⟨h1, h2⟩ := h
      subst h1 h2
      exact ⟨hoff, by simp only [Log.segmentList]; omega,
        chain_swap_last hchain hb1⟩

theorem logGood_appendAll :
    ∀ (rs : List Record) (n : Nat) (l : Log) (offs : List Nat) (l2 : Log),
      LogGood n l → l.appendAll rs = some (offs, l2) →
      offs = List.range' n rs.length ∧ LogGood (n + rs.length) l2 := by
  intro rs
  induction rs with
  | nil =>
    intro n l offs l2 hg h
    rw [Log.appendAll] at h
    simp only [Prod.mk.injEq, Option.some.injEq] at h
    obtain ⟨h1, h2⟩ := h
    subst h1 h2
    simpa using hg
  | cons r rest ih =>
    intro n l offs l2 hg h
    rw [Log.appendAll] at h
    rcases ha : l.append r with ⟨res, l1⟩
    rw [ha] at h
    cases res with
    | none => simp at h
    | some off =>
      dsimp only at h
      cases hrec : l1.appendAll rest with
      | none => rw [hrec] at h; simp at h
      | some p =>
        obtain ⟨offs1, l3⟩ := p
        rw [hrec] at h
        simp only [Prod.mk.injEq, Option.some.injEq] at h
        obtain ⟨h1, h2⟩ := h
        subst h2
        obtain ⟨hoff, hg1⟩ := logGood_step hg ha
        obtain ⟨ho1, hg2⟩ := ih (n + 1) l1 offs1 l3 hg1 hrec
        constructor
        · rw [← h1, ho1, hoff]
          simp [List.range']
        · rw [show n + (r :: rest).length = n + 1 + rest.length by
            simp only [List.length_cons]; omega]
          exact hg2

/-! ## Truncate -/

theorem truncateSegs_eq_filter (lowest : Nat) (h : lowest + 1 < p64) :
    ∀ xs : List Segment, truncateSegs lowest xs =
      xs.filter (fun s => decide (lowest + 1 < s.nextOffset)) := by
  have hmod : (lowest + 1) % p64 = lowest + 1 := Nat.mod_eq_of_lt h
  intro xs
  induction xs with
  | nil => rfl
  | cons s rest ih =>
    rw [truncateSegs, hmod]
    by_cases hc : s.nextOffset ≤ lowest + 1
    · rw [if_pos hc, ih, List.filter_cons_of_neg (by simpa using hc)]
    · rw [if_neg hc, ih, List.filter_cons_of_pos (by simpa using Nat.lt_of_not_le hc)]

/-! ## Claim theorems -/

/-- Claim C1 (code bug): the claim states that opening a log, appending
records r0, r1, closing, and reopening yields a log where `Read(k)`
returns r_k and the active segment's `NextOffset` is 2.  The code violates
this: the index is mapped with `MAP_SHARED | MAP_ANONYMOUS`
(internal/core/index/index.go line 147), so index entries live only in the
anonymous mapping and never reach the index file; after `Close` the file
is 24 zero bytes.  On reopen the tail-locate reads a zero entry, so
`NextOffset` is 1 (not 2) and `Read(1)` fails (no segment covers offset
1).  This theorem evaluates the model at the failing input: the in-session
appends and reads behave as specified, and the reopened log diverges. -/
theorem c1_roundtrip_code_bug :
    (NewLogEmptyDir.appendAll rtRecords).map Prod.fst = some [0, 1] ∧
    rtLog.read 0 = some ⟨[97], 0⟩ ∧
    rtLog.read 1 = some ⟨[98], 1⟩ ∧
    rtLog.active.nextOffset = 2 ∧
    rtDisk.2 = 24 ∧
    rtReopened.active.nextOffset = 1 ∧
    rtReopened.read 1 = none := by decide

/-- Claim C2 (confirmed): on a freshly opened empty log, the offsets
returned by a sequence of successful `Log.Append` calls are exactly
0, 1, ..., n-1; afterwards the active segment's `nextOffset` is n and
every adjacent pair of segments in the list satisfies
`base = previous.nextOffset`, which covers every roll performed along
the way.  (`Segment.IsFull`, which triggers the roll, lives in the
missing internal/core/segment and is modelled from the spec.) -/
theorem c2_log_append_offsets_contiguous (rs : List Record) :
    (NewLogEmptyDir.appendAll rs).elim True fun p =>
      p.1 = List.range rs.length ∧
      p.2.active.nextOffset = rs.length ∧
      List.Chain' (fun a b => b.baseOffset = a.nextOffset) p.2.segmentList := by
  cases ha : NewLogEmptyDir.appendAll rs with
  | none => exact trivial
  | some p =>
    obtain ⟨offs, l2⟩ := p
    obtain ⟨h1, h2, h3⟩ := logGood_appendAll rs 0 NewLogEmptyDir offs l2 logGood_init ha
    simp only [Option.elim]
    refine ⟨?_, by simpa using h2, h3⟩
    rw [h1, List.range_eq_range']

/-- Claim C3 (code bug): the claim (and spec) say a store constructed over
an existing file recomputes its logical size from the file length, so the
first append after reopen returns position L.  `NewStore` (part_005 line
115) instead initializes `size: 0` unconditionally: over a 16-byte file
the size is 0 and the first append returns position 0, not 16. -/
theorem c3_store_size_not_recomputed :
    c3file.length = 16 ∧
    (NewStore c3file).size = 0 ∧
    ((NewStore c3file).append [9] ioOK).1 = some (9, 0) := by decide

/-- Claim C4 counterexample: the claim says `Segment.Read(k)` fails with
`OutOfRange` for every `k < baseOffset`.  On a segment with base offset 10
holding one record, `Read(9)` computes `uint64(9-10)` = 2^64-1, casts it
to `int64` giving -1, and `Index.Read(-1)` returns the last entry: the
read succeeds and returns the last record instead of failing. -/
theorem c4_counterexample :
    c4seg.baseOffset = 10 ∧
    c4seg.nextOffset = 11 ∧
    c4seg.read 9 = some ⟨[97], 10⟩ := by decide

/-- Claim C4 (amended): for a segment built by successfully appending `rs`
to a fresh segment at `base` (store data below the int64/file-size bound),
and for `k ≥ baseOffset` with `k - base < 2^32`: if `k < nextOffset` the
read resolves `rel = k - base` through the index and the store and
succeeds with the k-th record; if `k ≥ nextOffset` it fails.  The claim's
clause for `k < baseOffset` is dropped: the unchecked uint64 wrap-around
makes such reads resolve to other entries (see the counterexample), and
relative offsets at or beyond 2^32 alias lower entries through the uint32
narrowing. -/
theorem c4_segment_read_amended (base maxS maxI : Nat) (rs : List Record) (s2 : Segment)
    (k : Nat) (happ : (Segment.fresh base maxS maxI).appendAll rs = some s2)
    (h63 : s2.store.size < 2 ^ 63)
    (hbase : base ≤ k) (h32 : k - base < p32) :
    (k - base < rs.length → s2.read k = some ⟨(rs.getD (k - base) ⟨[], 0⟩).value, k⟩) ∧
    (rs.length ≤ k - base → s2.read k = none) := by
  have hg := segGood_appendAll rs [] (Segment.fresh base maxS maxI) s2
    (segGood_init base maxS maxI) happ h63
  rw [List.nil_append] at hg
  exact ⟨fun h => segGood_read_ok hg h63 hbase h h32,
         fun h => segGood_read_beyond hg hbase h h32⟩

/-- Claim C4 witness: the amended theorem applied to the concrete segment
at base 10 holding one record: `Read(10)` succeeds with the record and
`Read(11)` fails. -/
theorem c4_witness :
    c4seg.read 10 = some ⟨[97], 10⟩ ∧ c4seg.read 11 = none :=
  ⟨(c4_segment_read_amended 10 1024 1024 [⟨[97], 0⟩] c4seg 10 rfl (by decide)
      (by decide) (by decide)).1 (by decide),
   (c4_segment_read_amended 10 1024 1024 [⟨[97], 0⟩] c4seg 11 rfl (by decide)
      (by decide) (by decide)).2 (by decide)⟩

/-- Claim C5 counterexample: the claim says `Segment.Append` fails with
`Full` if the Store would exceed `maxStoreBytes`.  On a segment configured
with `maxStoreBytes = 1`, appending a record succeeds and leaves the store
at 11 bytes: the store cap is never checked by `Segment.Append`. -/
theorem c5_counterexample :
    c5seg.maxStoreBytes = 1 ∧
    (c5seg.append ⟨[97], 0⟩ ioOK).1 = some 0 ∧
    ((c5seg.append ⟨[97], 0⟩ ioOK).2.2).store.size = 11 := by decide

/-- Claim C5 (amended): in a failure-free I/O run, `Segment.Append` fails
exactly when the Index would exceed its mapped capacity (the store cap is
not checked at append time; it is only consulted by the Log's roll
policy), and whenever `Append` returns an error — under any I/O outcome —
`nextOffset` is unchanged. -/
theorem c5_segment_append_amended (s : Segment) (r : Record) :
    ((s.append r ioOK).1 = none ↔ s.index.mmapLen < s.index.size + 12) ∧
    ∀ io : IoPlan, (s.append r io).1 = none →
      (s.append r io).2.2.nextOffset = s.nextOffset := by
  constructor
  · rw [Segment.append, Store.append_flushed]
    dsimp only
    cases hiw : s.index.write (u32 (u64sub s.nextOffset s.baseOffset)) s.store.size with
    | none =>
      exact iff_of_true rfl ((Index.write_none_iff _ _ _).mp hiw)
    | some ix =>
      refine iff_of_false (by simp) fun hc => ?_
      rw [Index.write_full hc] at hiw
      cases hiw
  · intro io h
    exact Segment.append_err_next s r io h

/-- Claim C5 witness: the amended theorem applied to a segment whose index
mapping (6 bytes) cannot hold an entry: the append fails and `nextOffset`
is unchanged. -/
theorem c5_witness :
    ((c5full.append ⟨[97], 0⟩ ioOK).2.2).nextOffset = c5full.nextOffset :=
  (c5_segment_append_amended c5full ⟨[97], 0⟩).2 ioOK (by decide)

/-- Claim C6 counterexample: the claim says `Read(i)` fails with
`OutOfRange` for every `i ≥ N`.  On an index holding N = 1 entry,
`Read(2^32)` succeeds and returns entry 0, because `uint32(in)` truncates
the input to 0. -/
theorem c6_counterexample :
    c6idx.size = 12 ∧
    c6idx.read ((4294967296 : Nat) : Int) = some (7, 13) := by decide

/-- Claim C6 (amended): for an index built by N successful writes of
entries within the uint32/uint64 ranges (N ≤ 2^32): `Read(i)` returns the
i-th written pair for 0 ≤ i < N; `Read(-1)` returns the last written
entry; `Read(i)` fails for N ≤ i < 2^32 (inputs ≥ 2^32 are truncated
mod 2^32 and can alias earlier entries, see the counterexample); and when
N = 0 every read fails.  (The source returns `io.EOF` both for the empty
index and for an entry beyond the populated size.) -/
theorem c6_index_read_amended (maxI : Nat) (ws : List (Nat × Nat)) (i2 : Index)
    (hw : (NewIndex 0 maxI).writeAll ws = some i2)
    (hbounds : ∀ e ∈ ws, e.1 < p32 ∧ e.2 < p64)
    (h32 : ws.length ≤ p32) :
    (∀ j, j < ws.length → i2.read (j : Int) = some (ws.getD j (0, 0))) ∧
    (1 ≤ ws.length → i2.read (-1) = some (ws.getD (ws.length - 1) (0, 0))) ∧
    (∀ j : Nat, ws.length ≤ j → j < p32 → i2.read (j : Int) = none) ∧
    (ws.length = 0 → ∀ z : Int, i2.read z = none) := by
  obtain ⟨hsz, hml, hreads⟩ := idxGood_writeAll ws [] (NewIndex 0 maxI) i2
    (idxGood_init maxI) hw
  simp only [List.nil_append] at hsz hreads
  have hget : ∀ j, j < ws.length → ws.getD j (0, 0) ∈ ws := by
    intro j hj
    rw [List.getD_eq_getElem ws (0, 0) hj]
    exact List.getElem_mem hj
  have hmain : ∀ j, j < ws.length → i2.read (j : Int) = some (ws.getD j (0, 0)) := by
    intro j hj
    have hj32 : j < p32 := by omega
    obtain ⟨hb1, hb2⟩ := hbounds (ws.getD j (0, 0)) (hget j hj)
    rw [hreads j hj hj32, Nat.mod_eq_of_lt hb1, Nat.mod_eq_of_lt hb2]
  refine ⟨hmain, ?_, ?_, ?_⟩
  · intro hN
    rw [Index.read_last_slot i2 ws.length hsz hN]
    exact hmain (ws.length - 1) (by omega)
  · intro j hj hj32
    exact Index.read_nat_beyond i2 hsz hj hj32
  · intro hN z
    rw [Index.read, if_pos (by rw [hsz, hN])]

/-- Claim C6 witness: the amended theorem applied to the one-entry index:
`Read(0)` and `Read(-1)` return the written pair and `Read(1)` fails. -/
theorem c6_witness :
    c6idx.read ((0 : Nat) : Int) = some (7, 13) ∧
    c6idx.read (-1) = some (7, 13) ∧
    c6idx.read ((1 : Nat) : Int) = none :=
  ⟨(c6_index_read_amended 1024 [(7, 13)] c6idx rfl (by decide) (by decide)).1 0 (by decide),
   (c6_index_read_amended 1024 [(7, 13)] c6idx rfl (by decide) (by decide)).2.1 (by decide),
   (c6_index_read_amended 1024 [(7, 13)] c6idx rfl (by decide) (by decide)).2.2.1 1
     (by decide) (by decide)⟩

/-- Claim C7 (confirmed): `Log.Truncate(lowest)` removes exactly the
segments whose `nextOffset ≤ lowest + 1` and retains every other segment,
in order, in the log's segment list. -/
theorem c7_truncate_exact (l : Log) (lowest : Nat) (h : lowest + 1 < p64) :
    l.truncate lowest =
      l.segmentList.filter (fun s => decide (lowest + 1 < s.nextOffset)) ∧
    ∀ s, s ∈ l.truncate lowest ↔ s ∈ l.segmentList ∧ lowest + 1 < s.nextOffset := by
  have heq := truncateSegs_eq_filter lowest h l.segmentList
  refine ⟨heq, fun s => ?_⟩
  rw [Log.truncate, heq, List.mem_filter]
  simp

/-- Claim C7 witness: truncating a fresh one-segment log at 0 removes its
only segment (`nextOffset = 0 ≤ 1`). -/
theorem c7_witness :
    NewLogEmptyDir.truncate 0 =
      NewLogEmptyDir.segmentList.filter (fun s => decide (0 + 1 < s.nextOffset)) :=
  (c7_truncate_exact NewLogEmptyDir 0 (by decide)).1

/-- Claim C8 counterexample: the claim says `Store.Read(p)` fails with
`OutOfBounds` and never panics whenever `p + 8 + N` exceeds the file size.
On a 16-byte file holding one entry whose payload is eight 0xFF bytes,
`Read(8)` decodes N = 2^64 - 1 and `make([]byte, N)` panics (slice length
out of range) instead of returning an error. -/
theorem c8_counterexample :
    c8file.length = 16 ∧
    storeReadFile c8file 8 = ReadRes.panicked := by decide

/-- Claim C8 (amended): for positions below 2^63 on a file shorter than
2^63 bytes, `Store.Read` behaves as follows.  When `int64(pos) + 8` does
not overflow (`pos + 8 < 2^63`), it fails with the explicit out-of-bounds
error when `p + 8 > size`.  When the addition overflows
(`2^63 ≤ pos + 8`), the wrapped sum is negative, so the bounds check
degenerates to `pos ≥ size`: the read fails with the out-of-bounds error
when `size ≤ pos`, but when `pos < size` the check passes and the 8-byte
prefix `ReadAt` comes up short, failing with `io.EOF` instead.  When
`p + 8 ≤ size`, with N the decoded length prefix at `p`: it panics when N
exceeds the maximum slice length (2^63 - 1); it fails with the short-read
`io.EOF` (an I/O error, not the out-of-bounds error) when
`p + 8 + N > size`; and it returns the N payload bytes at `p + 8`
otherwise. -/
theorem c8_store_read_amended (f : List Nat) (pos : Nat)
    (hfl : f.length < 2 ^ 63) (hpos : pos < 2 ^ 63) :
    (pos + 8 < 2 ^ 63 → f.length < pos + 8 → storeReadFile f pos = .failBounds) ∧
    (2 ^ 63 ≤ pos + 8 → f.length ≤ pos → storeReadFile f pos = .failBounds) ∧
    (2 ^ 63 ≤ pos + 8 → pos < f.length → storeReadFile f pos = .failEOF) ∧
    (pos + 8 ≤ f.length →
      (2 ^ 63 ≤ beDecode (readBytesL f pos 8) → storeReadFile f pos = .panicked) ∧
      (beDecode (readBytesL f pos 8) < 2 ^ 63 →
        f.length < pos + 8 + beDecode (readBytesL f pos 8) →
        storeReadFile f pos = .failEOF) ∧
      (pos + 8 + beDecode (readBytesL f pos 8) ≤ f.length →
        storeReadFile f pos =
          .ok (readBytesL f (pos + 8) (beDecode (readBytesL f pos 8))))) := by
  have hip := int64OfU64_small hpos
  refine ⟨?_, ?_, ?_, ?_⟩
  · intro hnov h
    have hadd : i64add ((pos : Nat) : Int) 8 = ((pos : Nat) : Int) + 8 := by
      simp only [i64add, i64wrap]
      omega
    unfold storeReadFile
    dsimp only
    rw [hip, hadd, if_pos (by omega)]
  · intro hov h
    have hadd : i64add ((pos : Nat) : Int) 8 = ((pos : Nat) : Int) + 8 - 2 ^ 64 := by
      simp only [i64add, i64wrap]
      omega
    unfold storeReadFile
    dsimp only
    rw [hip, if_pos (by rw [hadd]; omega)]
  · intro hov h
    have hadd : i64add ((pos : Nat) : Int) 8 = ((pos : Nat) : Int) + 8 - 2 ^ 64 := by
      simp only [i64add, i64wrap]
      omega
    unfold storeReadFile
    dsimp only
    rw [hip, if_neg (by rw [hadd]; omega), if_neg (by omega), if_pos (by omega)]
  · intro hle
    have hadd : i64add ((pos : Nat) : Int) 8 = ((pos : Nat) : Int) + 8 := by
      simp only [i64add, i64wrap]
      omega
    refine ⟨?_, ?_, ?_⟩
    · intro hn
      unfold storeReadFile
      dsimp only
      rw [hip, hadd, if_neg (by omega), if_neg (by omega), if_neg (by omega),
        if_pos (by omega)]
    · intro hn hov
      unfold storeReadFile
      dsimp only
      rw [hip, hadd, if_neg (by omega), if_neg (by omega), if_neg (by omega),
        if_neg (by omega), if_neg (by omega), if_neg (by omega), if_pos (by omega)]
    · intro hok
      unfold storeReadFile
      dsimp only
      rw [hip, hadd, if_neg (by omega), if_neg (by omega), if_neg (by omega),
        if_neg (by omega)]
      have htn : (((pos : Nat) : Int) + 8).toNat = pos + 8 := by omega
      by_cases hz : beDecode (readBytesL f pos 8) = 0
      · rw [if_pos hz, hz]
        rfl
      · rw [if_neg hz, if_neg (by omega), if_neg (by omega), htn]

/-- Claim C8 witness: the amended theorem reading a well-formed 3-byte
entry at position 0 of an 11-byte file. -/
theorem c8_witness :
    storeReadFile (putUint64 3 ++ [1, 2, 3]) 0 =
      ReadRes.ok (readBytesL (putUint64 3 ++ [1, 2, 3]) (0 + 8)
        (beDecode (readBytesL (putUint64 3 ++ [1, 2, 3]) 0 8))) :=
  ((c8_store_read_amended (putUint64 3 ++ [1, 2, 3]) 0 (by decide) (by decide)).2.2.2
    (by decide)).2.2 (by decide)

/-- Claim C9 counterexample: the claim says a failing `Store.Append` —
including a flush failure — leaves `size` unchanged.  When the buffered
writes succeed and `Flush` fails, the code has already executed
`store.size += totalWritten`: the call returns an error yet `size` has
advanced from 0 to 11. -/
theorem c9_counterexample :
    ((NewStore []).append [1, 2, 3] ⟨true, true, false⟩).1 = none ∧
    ((NewStore []).append [1, 2, 3] ⟨true, true, false⟩).2.size = 11 := by decide

/-- Claim C9 (amended): `Store.Append` leaves `size` unchanged when the
length-prefix write or the payload write fails; when both writes succeed
and the flush fails, the error propagates but `size` has already been
advanced by `len(entry) + 8`; on success `size` advances by
`len(entry) + 8` and the entry reaches the file. -/
theorem c9_store_append_amended (st : Store) (entry : List Nat) (io : IoPlan) :
    (io.lenOk = false → st.append entry io = (none, st)) ∧
    (io.lenOk = true → io.bodyOk = false → st.append entry io = (none, st)) ∧
    (io.lenOk = true → io.bodyOk = true → io.flushOk = false →
      st.append entry io = (none, { st with size := st.size + (entry.length + 8) })) ∧
    (io.lenOk = true → io.bodyOk = true → io.flushOk = true →
      st.append entry io =
        (some (entry.length + 8, st.size),
         { file := st.file ++ putUint64 entry.length ++ entry,
           size := st.size + (entry.length + 8) })) := by
  obtain ⟨lo, bo, fo⟩ := io
  cases lo <;> cases bo <;> cases fo <;> simp [Store.append]

/-- Claim C9 witness: the amended theorem applied to a concrete store and
a failing prefix write: the state is returned unchanged. -/
theorem c9_witness :
    (NewStore [5]).append [7] ⟨false, true, true⟩ = (none, NewStore [5]) :=
  (c9_store_append_amended (NewStore [5]) [7] ⟨false, true, true⟩).1 rfl

/-- Claim C10 (confirmed): `Segment.Append` overwrites the record's
`Offset` field with the assigned `nextOffset` before serializing (the
returned record is the caller's mutated record, so the caller's object
changes whenever its offset differed), and in a failure-free I/O run the
bytes persisted in the store are the serialization carrying the assigned
offset, not the caller-supplied one. -/
theorem c10_segment_append_mutates (s : Segment) (r : Record) (io : IoPlan) :
    (s.append r io).2.1 = { r with offset := s.nextOffset } ∧
    (r.offset ≠ s.nextOffset → (s.append r io).2.1 ≠ r) ∧
    (io = ioOK →
      ((s.append r io).2.2).store.file = s.store.file ++
        putUint64 (protoMarshal { r with offset := s.nextOffset }).length ++
        protoMarshal { r with offset := s.nextOffset }) := by
  have hrec : (s.append r io).2.1 = { r with offset := s.nextOffset } := by
    rw [Segment.append]
    rcases hsa : s.store.append (protoMarshal { r with offset := s.nextOffset }) io
      with ⟨res, st⟩
    cases res with
    | none => rfl
    | some v =>
      obtain ⟨w, pos⟩ := v
      dsimp only
      cases s.index.write (u32 (u64sub s.nextOffset s.baseOffset)) pos <;> rfl
  refine ⟨hrec, ?_, ?_⟩
  · intro hne heq
    rw [hrec] at heq
    have := congrArg Record.offset heq
    simp at this
    exact hne this.symm
  · rintro rfl
    rw [Segment.append, Store.append_flushed]
    dsimp only
    cases s.index.write (u32 (u64sub s.nextOffset s.baseOffset)) s.store.size <;> rfl

/-- Claim C10 witness: appending a record carrying offset 99 to a fresh
segment at base 5 persists the serialization with offset 5. -/
theorem c10_witness :
    ((c10seg.append ⟨[1], 99⟩ ioOK).2.2).store.file = c10seg.store.file ++
      putUint64 (protoMarshal { value := [1], offset := c10seg.nextOffset }).length ++
      protoMarshal { value := [1], offset := c10seg.nextOffset } :=
  (c10_segment_append_mutates c10seg ⟨[1], 99⟩ ioOK).2.2 rfl
